import Mathlib

/-!
Shallow embedding of the kubecfg discovery-cache module (utils/client.go):
the memcached discovery client (five read-through cache slots behind one
lock), the preferred-resource aggregation algorithm, and the
resource-client resolver helper.

Go pointers are modelled as `Option`; a Go `(value, error)` return is a
pair of options.  Go maps are association lists wrapped in `Option`
(`none` models a nil map, which Go reads as empty but panics on write).
Provider (network) calls are counted in ghost fields of the state so that
"issues a fresh provider call" is observable.
-/

namespace Kubecfg

/-! ## Data model (metav1 / schema types used by client.go) -/

/-- metav1.APIResource: Name (plural, may contain a slash for subresources),
Kind, and the Namespaced flag. -/
structure APIResource where
  name : String
  kind : String
  namespaced : Bool
deriving DecidableEq

/-- metav1.APIResourceList: the GroupVersion string plus its resources. -/
structure APIResourceList where
  groupVersion : String
  apiResources : List APIResource
deriving DecidableEq

/-- metav1.GroupVersionForDiscovery: the serialized group/version string and
the bare version. -/
structure GroupVersionForDiscovery where
  groupVersion : String
  version : String
deriving DecidableEq

/-- metav1.APIGroup: name, declared versions (in order), preferred version. -/
structure APIGroup where
  name : String
  versions : List GroupVersionForDiscovery
  preferredVersion : GroupVersionForDiscovery
deriving DecidableEq

/-- metav1.APIGroupList. -/
structure APIGroupList where
  groups : List APIGroup
deriving DecidableEq

/-- schema.GroupVersion. -/
structure GroupVersion where
  group : String
  version : String
deriving DecidableEq

/-- schema.GroupResource: the (group, resource-name) key of the aggregator. -/
structure GroupResource where
  group : String
  resource : String
deriving DecidableEq

/-- schema.GroupVersionKind. -/
structure GroupVersionKind where
  group : String
  version : String
  kind : String
deriving DecidableEq

/-- version.Info, opaque to this module. -/
structure VersionInfo where
  gitVersion : String
deriving DecidableEq

/-- swagger.ApiDeclaration, opaque to this module. -/
structure ApiDeclaration where
  raw : String
deriving DecidableEq

/-- openapi_v2.Document, opaque to this module. -/
structure OpenAPIDocument where
  raw : String
deriving DecidableEq

/-- A transport/decoding error from the remote provider, opaque here. -/
structure Err where
  msg : String
deriving DecidableEq

/-- schema.GroupVersion.String(): "group/version", or just "version" when the
group is empty. -/
def gvString (gv : GroupVersion) : String :=
  if gv.group = "" then gv.version else gv.group ++ "/" ++ gv.version

/-! ## Go strings.Contains -/

/-- Whether the second list is a leading segment of the first. -/
def leadsWith [DecidableEq α] : List α → List α → Bool
  | _, [] => true
  | [], _ :: _ => false
  | a :: as, b :: bs => decide (a = b) && leadsWith as bs

/-- Whether the second list occurs contiguously inside the first. -/
def hasSegment [DecidableEq α] : List α → List α → Bool
  | [], needle => needle.isEmpty
  | l@(_ :: rest), needle => leadsWith l needle || hasSegment rest needle

/-- strings.Contains from the Go standard library (substring containment). -/
def goStringsContains (s substr : String) : Bool :=
  hasSegment s.data substr.data

/-! ## Go maps as association lists -/

/-- Association-list lookup (first matching key). -/
def alistGet [DecidableEq κ] : List (κ × β) → κ → Option β
  | [], _ => none
  | p :: m, k => if p.1 = k then some p.2 else alistGet m k

/-- Remove every entry for a key. -/
def alistErase [DecidableEq κ] : List (κ × β) → κ → List (κ × β)
  | [], _ => []
  | p :: m, k => if p.1 = k then alistErase m k else p :: alistErase m k

/-- Go map assignment m[k] = v: each key occurs at most once. -/
def alistPut [DecidableEq κ] (m : List (κ × β)) (k : κ) (v : β) : List (κ × β) :=
  (k, v) :: alistErase m k

/-- A nil-able Go map with pointer values: `none` is a nil map. -/
abbrev GoMap (β : Type) := Option (List (String × Option β))

/-- Go single-value map read m[k]: a nil map and a missing key both read as
the zero value (a nil pointer). -/
def goMapRead (m : GoMap β) (k : String) : Option β :=
  match m with
  | none => none
  | some l =>
    match alistGet l k with
    | none => none
    | some v => v

/-- Go map write m[k] = v.  Writing to a nil map panics in Go; that case is
unreachable from any constructed client (see the reachability theorem for
the map-allocation invariant) and is modelled as a no-op. -/
def goMapWrite (m : GoMap β) (k : String) (v : Option β) : GoMap β :=
  match m with
  | none => none
  | some l => some (alistPut l k v)

/-! ## The memcached discovery client -/

/-- The remote discovery provider (the wrapped DiscoveryInterface), as pure
result tables: each method yields the Go (pointer, error) pair the network
call would return. -/
structure Provider where
  serverGroups : Option APIGroupList × Option Err
  serverResourcesForGroupVersion : String → Option APIResourceList × Option Err
  serverVersion : Option VersionInfo × Option Err
  swaggerSchema : String → Option ApiDeclaration × Option Err
  openAPISchema : Option OpenAPIDocument × Option Err

/-- The five cache slots of memcachedDiscoveryClient, plus ghost counters of
how many underlying provider calls each category has issued. -/
structure CacheState where
  servergroups : Option APIGroupList
  serverresources : GoMap APIResourceList
  schemas : GoMap ApiDeclaration
  schema : Option OpenAPIDocument
  serverVersion : Option VersionInfo
  callsGroups : Nat
  callsResources : Nat
  callsVersion : Nat
  callsSwagger : Nat
  callsOpenAPI : Nat
deriving DecidableEq

/-- Total number of provider calls issued so far (ghost). -/
def totalCalls (s : CacheState) : Nat :=
  s.callsGroups + s.callsResources + s.callsVersion + s.callsSwagger + s.callsOpenAPI

/-- Invalidate(): reset all five cache slots to their empty state.  The maps
are re-allocated fresh (non-nil and empty).  A total function: it cannot
fail.  The ghost counters are untouched. -/
def Invalidate (s : CacheState) : CacheState :=
  { s with
    servergroups := none
    serverresources := some []
    schemas := some []
    schema := none
    serverVersion := none }

/-- The all-nil zero value of the struct, before Invalidate runs. -/
def zeroCacheState : CacheState :=
  { servergroups := none
    serverresources := none
    schemas := none
    schema := none
    serverVersion := none
    callsGroups := 0
    callsResources := 0
    callsVersion := 0
    callsSwagger := 0
    callsOpenAPI := 0 }

/-- NewMemcachedDiscoveryClient: allocate the zero struct and eagerly
Invalidate it. -/
def NewMemcachedDiscoveryClient : CacheState :=
  Invalidate zeroCacheState

/-- ServerGroups: return the cached group list if the slot is non-nil;
otherwise fetch, assign the result into the slot even on error, and return
the (re-read) slot together with the fetch error. -/
def ServerGroups (cl : Provider) (s : CacheState) :
    (Option APIGroupList × Option Err) × CacheState :=
  match s.servergroups with
  | some g => ((some g, none), s)
  | none =>
    let fetched := cl.serverGroups
    let s' := { s with servergroups := fetched.1, callsGroups := s.callsGroups + 1 }
    ((s'.servergroups, fetched.2), s')

/-- ServerResourcesForGroupVersion: return the map entry if it reads non-nil;
otherwise fetch, assign the result under the key even on error, and return
the re-read entry together with the fetch error. -/
def ServerResourcesForGroupVersion (cl : Provider) (groupVersion : String)
    (s : CacheState) : (Option APIResourceList × Option Err) × CacheState :=
  match goMapRead s.serverresources groupVersion with
  | some v => ((some v, none), s)
  | none =>
    let fetched := cl.serverResourcesForGroupVersion groupVersion
    let s' := { s with
      serverresources := goMapWrite s.serverresources groupVersion fetched.1
      callsResources := s.callsResources + 1 }
    ((goMapRead s'.serverresources groupVersion, fetched.2), s')

/-- ServerVersion: on a miss, fetch; on a fetch error return the error
without storing anything; otherwise store the fetched info and return the
slot with no error. -/
def ServerVersion (cl : Provider) (s : CacheState) :
    (Option VersionInfo × Option Err) × CacheState :=
  match s.serverVersion with
  | some v => ((some v, none), s)
  | none =>
    let fetched := cl.serverVersion
    let s' := { s with callsVersion := s.callsVersion + 1 }
    match fetched.2 with
    | some e => ((none, some e), s')
    | none => ((fetched.1, none), { s' with serverVersion := fetched.1 })

/-- SwaggerSchema: keyed by the stringified GroupVersion; on a miss, fetch;
on a fetch error return it without storing; otherwise store and return. -/
def SwaggerSchema (cl : Provider) (version : GroupVersion) (s : CacheState) :
    (Option ApiDeclaration × Option Err) × CacheState :=
  let key := gvString version
  match goMapRead s.schemas key with
  | some v => ((some v, none), s)
  | none =>
    let fetched := cl.swaggerSchema key
    let s' := { s with callsSwagger := s.callsSwagger + 1 }
    match fetched.2 with
    | some e => ((none, some e), s')
    | none => ((fetched.1, none), { s' with schemas := goMapWrite s'.schemas key fetched.1 })

/-- OpenAPISchema: single slot; on a miss, fetch; on a fetch error return it
without storing; otherwise store and return. -/
def OpenAPISchema (cl : Provider) (s : CacheState) :
    (Option OpenAPIDocument × Option Err) × CacheState :=
  match s.schema with
  | some v => ((some v, none), s)
  | none =>
    let fetched := cl.openAPISchema
    let s' := { s with callsOpenAPI := s.callsOpenAPI + 1 }
    match fetched.2 with
    | some e => ((none, some e), s')
    | none => ((fetched.1, none), { s' with schema := fetched.1 })

/-! ## ServerPreferredResources

The Go loop interleaves three independent concerns: fetching each visited
resource list through the cache, selecting a winning version per
(group, resource-name) key, and preparing one placeholder output list per
visit.  The fetch does not read the selection state and the selection does
not read the placeholders, so the loop is embedded in those phases; each one
follows its portion of the source loop literally. -/

/-- One (group, version) pair to be visited, in group-declared order. -/
structure GVisit where
  gName : String
  prefV : String
  v : GroupVersionForDiscovery
deriving DecidableEq

/-- The visitation sequence of the outer double loop: for every group, for
every version the group declares, in order. -/
def triplesOf : List APIGroup → List GVisit
  | [] => []
  | g :: gs => g.versions.map (fun v => ⟨g.name, g.preferredVersion.version, v⟩) ++ triplesOf gs

/-- The group-declared visitation order, as GroupVersion strings. -/
def declaredOrder : List APIGroup → List String
  | [] => []
  | g :: gs => g.versions.map (·.groupVersion) ++ declaredOrder gs

/-- A completed visit: the pair that was visited plus the resource list the
cache returned for it. -/
structure Visit where
  gName : String
  prefV : String
  vStr : String
  vVer : String
  rs : List APIResource
deriving DecidableEq

/-- Outcome of the fetch loop: all visits completed (with the cache state
after them), an early return on a fetch error, or a nil-pointer
dereference on a (nil, nil) fetch result. -/
inductive FetchOut where
  | ok : List Visit → CacheState → FetchOut
  | fail : Err → CacheState → FetchOut
  | panicked : FetchOut
deriving DecidableEq

/-- The fetch portion of the loop: call ServerResourcesForGroupVersion for
every pair in order, aborting on the first error. -/
def fetchVisits (cl : Provider) : List GVisit → CacheState → FetchOut
  | [], s => .ok [] s
  | t :: ts, s =>
    let r := ServerResourcesForGroupVersion cl t.v.groupVersion s
    match r.1.2 with
    | some e => .fail e r.2
    | none =>
      match r.1.1 with
      | none => .panicked
      | some rl =>
        match fetchVisits cl ts r.2 with
        | .ok vs s'' => .ok (⟨t.gName, t.prefV, t.v.groupVersion, t.v.version, rl.apiResources⟩ :: vs) s''
        | out => out

/-- The two selection maps: chosen version and chosen descriptor per
(group, resource-name) key. -/
structure SelState where
  grVersions : List (GroupResource × String)
  grApiResources : List (GroupResource × APIResource)
deriving DecidableEq

/-- The body of the selection loop for one resource: skip subresources
(names containing a slash); skip when the key is already recorded and the
current version is not the preferred one; otherwise record the current
version and descriptor under the key. -/
def selectResource (gName prefV vV : String) (acc : SelState) (r : APIResource) : SelState :=
  if goStringsContains r.name "/" then acc
  else if (alistGet acc.grApiResources ⟨gName, r.name⟩).isSome ∧ vV ≠ prefV then acc
  else ⟨alistPut acc.grVersions ⟨gName, r.name⟩ vV,
        alistPut acc.grApiResources ⟨gName, r.name⟩ r⟩

/-- The selection loop over one fetched resource list. -/
def selectList (gName prefV vV : String) (rs : List APIResource) (acc : SelState) : SelState :=
  rs.foldl (selectResource gName prefV vV) acc

/-- The selection loop over one visit. -/
def selectVisit (acc : SelState) (t : Visit) : SelState :=
  selectList t.gName t.prefV t.vVer t.rs acc

/-- The whole selection pass over all visits, starting from empty maps. -/
def selectAll (visits : List Visit) : SelState :=
  visits.foldl selectVisit ⟨[], []⟩

/-- Pair each element with its index, starting at n. -/
def withIdx : Nat → List α → List (Nat × α)
  | _, [] => []
  | n, a :: as => (n, a) :: withIdx (n + 1) as

/-- The gvApiResourceLists map: each visited structured GroupVersion points
at the placeholder created for that visit; a later visit of the same pair
overwrites the pointer (the Go map assignment). Placeholders are identified
by their position in the output slice. -/
def gvAux : Nat → List (GroupVersion × Nat) → List Visit → List (GroupVersion × Nat)
  | _, m, [] => m
  | n, m, t :: ts => gvAux (n + 1) (alistPut m ⟨t.gName, t.vVer⟩ n) ts

def gvListsOf (visits : List Visit) : List (GroupVersion × Nat) :=
  gvAux 0 [] visits

/-- The regrouping loop: for every selected (key, descriptor) entry, find the
placeholder of its winning GroupVersion (a missing grVersions entry reads as
the empty string, like a Go map) and record the append.  A missing
placeholder would be a nil-pointer dereference in Go: `none`. -/
def buckets (grV : List (GroupResource × String)) (gvL : List (GroupVersion × Nat)) :
    List (GroupResource × APIResource) → Option (List (Nat × APIResource))
  | [] => some []
  | (k, r) :: rest =>
    match alistGet gvL ⟨k.group, (alistGet grV k).getD ""⟩ with
    | none => none
    | some i => (buckets grV gvL rest).map (fun l => (i, r) :: l)

/-- Assemble the output: one APIResourceList per visit, in visitation order,
carrying the GroupVersion string of the visit and the winners appended to
that placeholder. -/
def assemble (visits : List Visit) : Option (List APIResourceList) :=
  let sel := selectAll visits
  match buckets sel.grVersions (gvListsOf visits) sel.grApiResources with
  | none => none
  | some pairs =>
    some ((withIdx 0 visits).map (fun p =>
      ⟨p.2.vStr, (pairs.filter (fun q => q.1 = p.1)).map (·.2)⟩))

/-- Result of ServerPreferredResources: the Go (slice, error) return, with
the cache state threaded through, or a panic. -/
inductive AggResult where
  | ok : List APIResourceList → CacheState → AggResult
  | err : Err → CacheState → AggResult
  | panicked : AggResult
deriving DecidableEq

/-- ServerPreferredResources: fetch the group list, visit every declared
(group, version) pair fetching its resource list, select one winning version
per (group, resource-name) key (preferred version overrides, any other
version is kept only as first writer), and regroup the winners into the
per-visit placeholder lists. -/
def ServerPreferredResources (cl : Provider) (s : CacheState) : AggResult :=
  let g := ServerGroups cl s
  match g.1.2 with
  | some e => .err e g.2
  | none =>
    match g.1.1 with
    | none => .panicked
    | some gl =>
      match fetchVisits cl (triplesOf gl.groups) g.2 with
      | .fail e s2 => .err e s2
      | .panicked => .panicked
      | .ok visits s2 =>
        match assemble visits with
        | none => .panicked
        | some lists => .ok lists s2

/-- Modelled from the spec: the external discovery library helper FilteredBy,
which is not part of this repository.  Per the spec, PreferredNamespacedResources
"filters the aggregator output to only Namespaced resources, preserving the
grouping structure (same GroupVersion buckets, just fewer Resources inside
each)". -/
def FilteredBy (pred : String → APIResource → Bool) (rls : List APIResourceList) :
    List APIResourceList :=
  rls.map (fun rl => ⟨rl.groupVersion, rl.apiResources.filter (pred rl.groupVersion)⟩)

/-- ServerPreferredNamespacedResources: the aggregator output filtered down
to namespaced resources. -/
def ServerPreferredNamespacedResources (cl : Provider) (s : CacheState) : AggResult :=
  match ServerPreferredResources cl s with
  | .ok lists s' => .ok (FilteredBy (fun _ r => r.namespaced) lists) s'
  | .err e s' => .err e s'
  | .panicked => .panicked

/-! ## Resource-client resolver -/

/-- The errors serverResourceForGroupVersionKind synthesizes: a wrapped
fetch failure naming the offending group-version, or the
"Server is unable to handle" error naming the group-version-kind. -/
inductive ResolveErr where
  | unableToFetch : GroupVersion → Err → ResolveErr
  | unableToHandle : GroupVersionKind → ResolveErr
deriving DecidableEq

/-- gvk.GroupVersion(). -/
def gvOf (gvk : GroupVersionKind) : GroupVersion :=
  ⟨gvk.group, gvk.version⟩

/-- The linear scan of the resolver loop: the first resource whose Kind
matches. -/
def firstKindMatch (kind : String) : List APIResource → Option APIResource
  | [] => none
  | r :: rest => if r.kind = kind then some r else firstKindMatch kind rest

/-- serverResourceForGroupVersionKind: fetch the resource list for the
object's group-version (through the given discovery provider), wrap a fetch
error with the group-version, scan for the first Kind match, and synthesize
a not-found error naming the group-version-kind when nothing matches.  The
outer `none` is the nil-pointer dereference on a (nil, nil) fetch result. -/
def serverResourceForGroupVersionKind
    (disco : String → Option APIResourceList × Option Err) (gvk : GroupVersionKind) :
    Option (Option APIResource × Option ResolveErr) :=
  match disco (gvString (gvOf gvk)) with
  | (_, some e) => some (none, some (.unableToFetch (gvOf gvk) e))
  | (none, none) => none
  | (some rl, none) =>
    match firstKindMatch gvk.kind rl.apiResources with
    | some r => some (some r, none)
    | none => some (none, some (.unableToHandle gvk))

/-! ## Specification-level functions used to state the tie-break claim -/

/-- Whether a resource list holds at least one resource with this exact
name, not a subresource. -/
def hasPlainNamed (n : String) (rs : List APIResource) : Bool :=
  rs.any (fun r => decide (r.name = n) && !goStringsContains r.name "/")

/-- The (version, preferredVersion) occurrences of a (group, resource-name)
key over a visit sequence, in visitation order: one entry for every visit of
that group whose resource list mentions the plain name. -/
def seenOccs (g n : String) : List Visit → List (String × String)
  | [] => []
  | t :: ts =>
    if t.gName = g ∧ hasPlainNamed n t.rs then (t.vVer, t.prefV) :: seenOccs g n ts
    else seenOccs g n ts

/-- One step of the tie-break rule, as stated: the first version seen is
recorded; a later version replaces the recorded one exactly when it equals
the preferred version of its visit. -/
def tieStep (acc : Option String) (p : String × String) : Option String :=
  match acc with
  | none => some p.1
  | some w => if p.1 = p.2 then some p.1 else some w

/-- The tie-break rule folded over all occurrences of a key. -/
def tieBreak (occs : List (String × String)) : Option String :=
  occs.foldl tieStep none

/-- Domain agreement of the two selection maps: they are always written
together. -/
def SelInv (acc : SelState) : Prop :=
  ∀ k, (alistGet acc.grVersions k).isSome = (alistGet acc.grApiResources k).isSome

/-- Every selected descriptor carries the plain (slash-free) name of its
key: only such resources are ever written into the selection maps. -/
def SelNames (acc : SelState) : Prop :=
  ∀ p ∈ acc.grApiResources,
    (p : GroupResource × APIResource).2.name = p.1.resource ∧
    goStringsContains p.2.name "/" = false

/-! ## Operations of the cache surface, for the reachability invariant -/

/-- The lock-protected operations of memcachedDiscoveryClient.  The derived
methods (ServerResources, the preferred-resource aggregation and its
namespaced variant) only compose these, so reachable states are generated by
this set. -/
inductive Op where
  | invalidate
  | groups
  | resourcesFor (gv : String)
  | version
  | swagger (gv : GroupVersion)
  | openapi

/-- The state effect of one operation. -/
def step (cl : Provider) (s : CacheState) : Op → CacheState
  | .invalidate => Invalidate s
  | .groups => (ServerGroups cl s).2
  | .resourcesFor gv => (ServerResourcesForGroupVersion cl gv s).2
  | .version => (ServerVersion cl s).2
  | .swagger gv => (SwaggerSchema cl gv s).2
  | .openapi => (OpenAPISchema cl s).2

/-- Run a sequence of operations from a given state. -/
def runOps (cl : Provider) (ops : List Op) (s : CacheState) : CacheState :=
  ops.foldl (step cl) s

/-- Both Go maps of the cache are allocated (non-nil). -/
def MapsAlloc (s : CacheState) : Prop :=
  s.serverresources.isSome = true ∧ s.schemas.isSome = true

/-! ## Sample cluster data -/

/-- The counting helper of the namespaced-filter claim: total number of
resources listed under a GroupVersion string. -/
def countFor (gv : String) (ls : List APIResourceList) : Nat :=
  ((ls.filter (fun rl => decide (rl.groupVersion = gv))).map
    (fun rl => rl.apiResources.length)).sum

/-- The "apps" group of the tie-break scenario: two versions, v1 preferred. -/
def appsGroup : APIGroup :=
  { name := "apps"
    versions := [⟨"apps/v1beta1", "v1beta1"⟩, ⟨"apps/v1", "v1"⟩]
    preferredVersion := ⟨"apps/v1", "v1"⟩ }

def deploymentsRes : APIResource := ⟨"deployments", "Deployment", true⟩

/-- Provider for the tie-break scenario: deployments exist in both apps
versions. -/
def clApps : Provider :=
  { serverGroups := (some ⟨[appsGroup]⟩, none)
    serverResourcesForGroupVersion := fun gv =>
      if gv = "apps/v1beta1" then (some ⟨"apps/v1beta1", [deploymentsRes]⟩, none)
      else if gv = "apps/v1" then (some ⟨"apps/v1", [deploymentsRes]⟩, none)
      else (none, some ⟨"no such group version"⟩)
    serverVersion := (some ⟨"v1.8.0"⟩, none)
    swaggerSchema := fun _ => (some ⟨"swagger"⟩, none)
    openAPISchema := (some ⟨"openapi"⟩, none) }

def podsRes : APIResource := ⟨"pods", "Pod", true⟩
def podsStatusRes : APIResource := ⟨"pods/status", "Pod", true⟩
def nodesRes : APIResource := ⟨"nodes", "Node", false⟩
def jobsRes : APIResource := ⟨"jobs", "Job", true⟩

/-- Provider with a core group exposing a subresource and a cluster-scoped
resource, and a batch group. -/
def clCore : Provider :=
  { serverGroups := (some ⟨[
      { name := ""
        versions := [⟨"v1", "v1"⟩]
        preferredVersion := ⟨"v1", "v1"⟩ },
      { name := "batch"
        versions := [⟨"batch/v1", "v1"⟩]
        preferredVersion := ⟨"batch/v1", "v1"⟩ }]⟩, none)
    serverResourcesForGroupVersion := fun gv =>
      if gv = "v1" then (some ⟨"v1", [podsRes, podsStatusRes, nodesRes]⟩, none)
      else if gv = "batch/v1" then (some ⟨"batch/v1", [jobsRes]⟩, none)
      else (none, some ⟨"no such group version"⟩)
    serverVersion := (some ⟨"v1.8.0"⟩, none)
    swaggerSchema := fun _ => (some ⟨"swagger"⟩, none)
    openAPISchema := (some ⟨"openapi"⟩, none) }

/-- Provider whose every call fails with a nil result. -/
def clBad : Provider :=
  { serverGroups := (none, some ⟨"groups boom"⟩)
    serverResourcesForGroupVersion := fun _ => (none, some ⟨"resources boom"⟩)
    serverVersion := (none, some ⟨"version boom"⟩)
    swaggerSchema := fun _ => (none, some ⟨"swagger boom"⟩)
    openAPISchema := (none, some ⟨"openapi boom"⟩) }

/-- Provider whose calls fail while still producing non-nil results. -/
def clPoison : Provider :=
  { serverGroups := (some ⟨[]⟩, some ⟨"groups late error"⟩)
    serverResourcesForGroupVersion := fun gv => (some ⟨gv, []⟩, some ⟨"resources late error"⟩)
    serverVersion := (none, some ⟨"version boom"⟩)
    swaggerSchema := fun _ => (none, some ⟨"swagger boom"⟩)
    openAPISchema := (none, some ⟨"openapi boom"⟩) }

/-- A discovery lookup table for the resolver scenario. -/
def discoBatch : String → Option APIResourceList × Option Err := fun gv =>
  if gv = "batch/v1" then (some ⟨"batch/v1", [⟨"cronjobs", "CronJob", true⟩, jobsRes]⟩, none)
  else (none, some ⟨"no such group version"⟩)

end Kubecfg

namespace Kubecfg

/-! ## Basic lemmas about the map model -/

@[simp]
theorem alistGet_nil [DecidableEq κ] (k : κ) : alistGet ([] : List (κ × β)) k = none := rfl

@[simp]
theorem alistGet_cons [DecidableEq κ] (p : κ × β) (m : List (κ × β)) (k : κ) :
    alistGet (p :: m) k = if p.1 = k then some p.2 else alistGet m k := rfl

theorem alistGet_erase [DecidableEq κ] (m : List (κ × β)) (k k' : κ) :
    alistGet (alistErase m k) k' = if k = k' then none else alistGet m k' := by
  induction m with
  | nil => simp [alistErase]
  | cons p m ih =>
    simp only [alistErase]
    by_cases h1 : p.1 = k
    · rw [if_pos h1, ih]
      by_cases h2 : k = k'
      · simp [h2]
      · have hp : ¬ p.1 = k' := fun hh => h2 (h1.symm.trans hh)
        simp [h2, hp]
    · rw [if_neg h1]
      by_cases h2 : p.1 = k'
      · have hkk : ¬ k = k' := fun hh => h1 (h2.trans hh.symm)
        simp [h2, hkk]
      · simp [h2, ih]

@[simp]
theorem alistGet_put [DecidableEq κ] (m : List (κ × β)) (k k' : κ) (v : β) :
    alistGet (alistPut m k v) k' = if k = k' then some v else alistGet m k' := by
  by_cases h : k = k' <;> simp [alistPut, alistGet_erase, h]

/-- A successful lookup yields a member entry. -/
theorem alistGet_mem [DecidableEq κ] {m : List (κ × β)} {k : κ} {v : β}
    (h : alistGet m k = some v) : (k, v) ∈ m := by
  induction m with
  | nil => simp [alistGet] at h
  | cons p m ih =>
    obtain ⟨pk, pv⟩ := p
    by_cases hp : pk = k
    · subst hp
      simp [alistGet] at h
      subst h
      exact List.mem_cons_self _ _
    · simp [alistGet, hp] at h
      exact List.mem_cons_of_mem _ (ih h)

@[simp]
theorem goMapRead_write_some (l : List (String × Option β)) (k : String) (v : Option β) :
    goMapRead (goMapWrite (some l) k v) k = v := by
  cases v <;> simp [goMapRead, goMapWrite]

/-! ## Lemmas about the selection pass -/

theorem tieStep_idem (o : Option String) (p : String × String) :
    tieStep (tieStep o p) p = tieStep o p := by
  cases o with
  | none => by_cases h : p.1 = p.2 <;> simp [tieStep, h]
  | some w => by_cases h : p.1 = p.2 <;> simp [tieStep, h]

theorem selectResource_inv (gName prefV vV : String) (acc : SelState) (r : APIResource)
    (h : SelInv acc) : SelInv (selectResource gName prefV vV acc r) := by
  unfold selectResource
  split
  · exact h
  · split
    · exact h
    · intro k
      by_cases hk : (⟨gName, r.name⟩ : GroupResource) = k <;> simp [hk, h k]

theorem selectResource_grV (gName prefV vV : String) (acc : SelState) (r : APIResource)
    (k : GroupResource) (h : SelInv acc) :
    alistGet (selectResource gName prefV vV acc r).grVersions k =
      if gName = k.group ∧ r.name = k.resource ∧ goStringsContains r.name "/" = false then
        tieStep (alistGet acc.grVersions k) (vV, prefV)
      else alistGet acc.grVersions k := by
  obtain ⟨kg, kr⟩ := k
  by_cases hs : goStringsContains r.name "/" = true
  · simp [selectResource, hs]
  · have hs' : goStringsContains r.name "/" = false := by
      cases hh : goStringsContains r.name "/" <;> simp_all
    by_cases hg : (alistGet acc.grApiResources ⟨gName, r.name⟩).isSome = true ∧ vV ≠ prefV
    · by_cases hk1 : gName = kg
      · by_cases hk2 : r.name = kr
        · subst hk1
          subst hk2
          have hsome : (alistGet acc.grVersions ⟨gName, r.name⟩).isSome = true := by
            rw [h ⟨gName, r.name⟩]
            exact hg.1
          cases ho : alistGet acc.grVersions ⟨gName, r.name⟩ with
          | none => rw [ho] at hsome; simp at hsome
          | some w => simp [selectResource, hs', hg, ho, tieStep, hg.2]
        · simp [selectResource, hs', hg, hk2]
      · simp [selectResource, hs', hg, hk1]
    · by_cases hk1 : gName = kg
      · by_cases hk2 : r.name = kr
        · subst hk1
          subst hk2
          cases ho : alistGet acc.grVersions ⟨gName, r.name⟩ with
          | none => simp [selectResource, hs', hg, ho, tieStep]
          | some w =>
            have hA : (alistGet acc.grApiResources ⟨gName, r.name⟩).isSome = true := by
              rw [← h ⟨gName, r.name⟩, ho]
              rfl
            have hval : vV = prefV := by
              by_contra hne
              exact hg ⟨hA, hne⟩
            simp [selectResource, hs', hg, ho, tieStep, hval]
        · simp [selectResource, hs', hg, hk2]
      · simp [selectResource, hs', hg, hk1]


theorem selectList_inv (gName prefV vV : String) (rs : List APIResource) (acc : SelState)
    (h : SelInv acc) : SelInv (selectList gName prefV vV rs acc) := by
  induction rs generalizing acc with
  | nil => exact h
  | cons r rs ih => exact ih _ (selectResource_inv gName prefV vV acc r h)

theorem selectList_grV (gName prefV vV : String) (rs : List APIResource) (acc : SelState)
    (k : GroupResource) (h : SelInv acc) :
    alistGet (selectList gName prefV vV rs acc).grVersions k =
      if gName = k.group ∧ hasPlainNamed k.resource rs = true then
        tieStep (alistGet acc.grVersions k) (vV, prefV)
      else alistGet acc.grVersions k := by
  induction rs generalizing acc with
  | nil => simp [selectList, hasPlainNamed]
  | cons r rs ih =>
    have hinv' := selectResource_inv gName prefV vV acc r h
    have hstep := selectResource_grV gName prefV vV acc r k h
    have hres := ih (selectResource gName prefV vV acc r) hinv'
    have hrw : selectList gName prefV vV (r :: rs) acc =
        selectList gName prefV vV rs (selectResource gName prefV vV acc r) := rfl
    rw [hrw, hres, hstep]
    by_cases hq : r.name = k.resource ∧ goStringsContains r.name "/" = false
    · have hany : hasPlainNamed k.resource (r :: rs) = true := by
        have hh : (decide (r.name = k.resource) && !goStringsContains r.name "/") = true := by
          rw [hq.2]
          simp [hq.1]
        simp [hasPlainNamed, List.any_cons, hh]
      have hq2' : goStringsContains k.resource "/" = false := hq.1 ▸ hq.2
      by_cases hgk : gName = k.group
      · by_cases hrest : hasPlainNamed k.resource rs = true
        · simp [hgk, hany, hrest, hq.1, hq.2, hq2', tieStep_idem]
        · simp [hgk, hany, hrest, hq.1, hq.2, hq2']
      · simp [hgk]
    · have hcondA : ¬ (gName = k.group ∧ r.name = k.resource ∧
          goStringsContains r.name "/" = false) := fun hh => hq ⟨hh.2.1, hh.2.2⟩
      have hany2 : hasPlainNamed k.resource (r :: rs) = hasPlainNamed k.resource rs := by
        have hh : (decide (r.name = k.resource) && !goStringsContains r.name "/") = false := by
          by_cases h1 : r.name = k.resource
          · have h2 : goStringsContains r.name "/" = true := by
              cases hh2 : goStringsContains r.name "/"
              · exact absurd ⟨h1, hh2⟩ hq
              · rfl
            simp [h2]
          · simp [h1]
        simp [hasPlainNamed, List.any_cons, hh]
      rw [if_neg hcondA, hany2]

theorem selectVisit_inv (acc : SelState) (t : Visit) (h : SelInv acc) :
    SelInv (selectVisit acc t) :=
  selectList_inv t.gName t.prefV t.vVer t.rs acc h

theorem selectFold_grV (visits : List Visit) (acc : SelState) (k : GroupResource)
    (h : SelInv acc) :
    alistGet (visits.foldl selectVisit acc).grVersions k =
      (seenOccs k.group k.resource visits).foldl tieStep (alistGet acc.grVersions k) := by
  induction visits generalizing acc with
  | nil => simp [seenOccs]
  | cons t ts ih =>
    rw [List.foldl_cons, ih _ (selectVisit_inv acc t h)]
    have hv : alistGet (selectVisit acc t).grVersions k =
        if t.gName = k.group ∧ hasPlainNamed k.resource t.rs = true then
          tieStep (alistGet acc.grVersions k) (t.vVer, t.prefV)
        else alistGet acc.grVersions k :=
      selectList_grV t.gName t.prefV t.vVer t.rs acc k h
    by_cases hc : t.gName = k.group ∧ hasPlainNamed k.resource t.rs = true
    · rw [hv, if_pos hc]
      have hseen : seenOccs k.group k.resource (t :: ts) =
          (t.vVer, t.prefV) :: seenOccs k.group k.resource ts := by
        simp [seenOccs, hc.1, hc.2]
      rw [hseen, List.foldl_cons]
    · rw [hv, if_neg hc]
      have hseen : seenOccs k.group k.resource (t :: ts) = seenOccs k.group k.resource ts := by
        simp only [seenOccs]
        rw [if_neg hc]
      rw [hseen]

/-- Claim C1: in ServerPreferredResources, for every (group, resource-name)
key, the first version seen in group-declared order is recorded, and a later
version replaces the recorded one if and only if that later version equals
the PreferredVersion of the group being visited (the tieStep fold); in
particular, for a group "apps" with versions v1beta1 then v1 and
PreferredVersion v1, with "deployments" in both versions, the aggregated
output lists "deployments" under "apps/v1" only. -/
theorem serverPreferredResources_tie_break :
    (∀ (visits : List Visit) (g n : String),
        alistGet (selectAll visits).grVersions ⟨g, n⟩ = tieBreak (seenOccs g n visits)) ∧
    (∃ s', ServerPreferredResources clApps NewMemcachedDiscoveryClient =
        AggResult.ok [⟨"apps/v1beta1", []⟩, ⟨"apps/v1", [deploymentsRes]⟩] s') := by
  constructor
  · intro visits g n
    have hinv : SelInv ⟨[], []⟩ := fun _ => rfl
    simpa [selectAll, tieBreak] using selectFold_grV visits ⟨[], []⟩ ⟨g, n⟩ hinv
  · exact ⟨_, rfl⟩

/-! ## Cache behaviour -/

/-- Claim C3: Invalidate resets all five cache slots (group list, resource
map, schema map, unified schema, server version) to their empty state in one
state transition, is total (cannot fail) and leaves the ghost call counters
alone; afterwards the next call to every read-through method issues a fresh
provider call, whatever the provider returns. -/
theorem invalidate_resets_all_slots (cl : Provider) (s : CacheState) (gv : String)
    (gvv : GroupVersion) :
    (Invalidate s).servergroups = none ∧
    (Invalidate s).serverresources = some [] ∧
    (Invalidate s).schemas = some [] ∧
    (Invalidate s).schema = none ∧
    (Invalidate s).serverVersion = none ∧
    totalCalls (Invalidate s) = totalCalls s ∧
    totalCalls (ServerGroups cl (Invalidate s)).2 = totalCalls s + 1 ∧
    totalCalls (ServerResourcesForGroupVersion cl gv (Invalidate s)).2 = totalCalls s + 1 ∧
    totalCalls (ServerVersion cl (Invalidate s)).2 = totalCalls s + 1 ∧
    totalCalls (SwaggerSchema cl gvv (Invalidate s)).2 = totalCalls s + 1 ∧
    totalCalls (OpenAPISchema cl (Invalidate s)).2 = totalCalls s + 1 := by
  refine ⟨rfl, rfl, rfl, rfl, rfl, rfl, ?_, ?_, ?_, ?_, ?_⟩
  · simp [ServerGroups, Invalidate, totalCalls]
    omega
  · simp [ServerResourcesForGroupVersion, Invalidate, goMapRead, totalCalls]
    omega
  · rcases hv : cl.serverVersion with ⟨v, e⟩
    cases e <;> simp [ServerVersion, Invalidate, totalCalls, hv] <;> omega
  · rcases hw : cl.swaggerSchema (gvString gvv) with ⟨d, e⟩
    cases e <;> simp [SwaggerSchema, Invalidate, goMapRead, totalCalls, hw] <;> omega
  · rcases ho : cl.openAPISchema with ⟨d, e⟩
    cases e <;> simp [OpenAPISchema, Invalidate, totalCalls, ho] <;> omega

/-- Claim C4: each of the five read-through methods, called twice with no
intervening Invalidate from a state where its slot is empty and with a
successful provider, issues exactly one provider call (the ghost total rises
by one on the first call), and the second call returns the very value the
first returned, leaving the state untouched. -/
theorem read_through_idempotent (cl : Provider) (s : CacheState)
    (g : APIGroupList) (rl : APIResourceList) (vi : VersionInfo) (sd : ApiDeclaration)
    (od : OpenAPIDocument) (gv : String) (gvv : GroupVersion)
    (m : List (String × Option APIResourceList)) (ms : List (String × Option ApiDeclaration))
    (m1 : s.servergroups = none) (hg : cl.serverGroups = (some g, none))
    (hm : s.serverresources = some m) (m2 : goMapRead s.serverresources gv = none)
    (hr : cl.serverResourcesForGroupVersion gv = (some rl, none))
    (m3 : s.serverVersion = none) (hv : cl.serverVersion = (some vi, none))
    (hms : s.schemas = some ms) (m4 : goMapRead s.schemas (gvString gvv) = none)
    (hw : cl.swaggerSchema (gvString gvv) = (some sd, none))
    (m5 : s.schema = none) (ho : cl.openAPISchema = (some od, none)) :
    (ServerGroups cl s).1 = (some g, none) ∧
    ServerGroups cl (ServerGroups cl s).2 = ((some g, none), (ServerGroups cl s).2) ∧
    totalCalls (ServerGroups cl s).2 = totalCalls s + 1 ∧
    (ServerResourcesForGroupVersion cl gv s).1 = (some rl, none) ∧
    ServerResourcesForGroupVersion cl gv (ServerResourcesForGroupVersion cl gv s).2 =
      ((some rl, none), (ServerResourcesForGroupVersion cl gv s).2) ∧
    totalCalls (ServerResourcesForGroupVersion cl gv s).2 = totalCalls s + 1 ∧
    (ServerVersion cl s).1 = (some vi, none) ∧
    ServerVersion cl (ServerVersion cl s).2 = ((some vi, none), (ServerVersion cl s).2) ∧
    totalCalls (ServerVersion cl s).2 = totalCalls s + 1 ∧
    (SwaggerSchema cl gvv s).1 = (some sd, none) ∧
    SwaggerSchema cl gvv (SwaggerSchema cl gvv s).2 =
      ((some sd, none), (SwaggerSchema cl gvv s).2) ∧
    totalCalls (SwaggerSchema cl gvv s).2 = totalCalls s + 1 ∧
    (OpenAPISchema cl s).1 = (some od, none) ∧
    OpenAPISchema cl (OpenAPISchema cl s).2 = ((some od, none), (OpenAPISchema cl s).2) ∧
    totalCalls (OpenAPISchema cl s).2 = totalCalls s + 1 := by
  have e1 : ServerGroups cl s =
      ((some g, none), { s with servergroups := some g, callsGroups := s.callsGroups + 1 }) := by
    simp [ServerGroups, m1, hg]
  have e2 : ServerResourcesForGroupVersion cl gv s =
      ((some rl, none),
        { s with
          serverresources := some (alistPut m gv (some rl))
          callsResources := s.callsResources + 1 }) := by
    have m2' : goMapRead (some m) gv = none := hm ▸ m2
    unfold ServerResourcesForGroupVersion
    rw [hm, m2']
    simp [hr, goMapWrite, goMapRead]
  have e3 : ServerVersion cl s =
      ((some vi, none),
        { s with
          serverVersion := some vi
          callsVersion := s.callsVersion + 1 }) := by
    simp [ServerVersion, m3, hv]
  have e4 : SwaggerSchema cl gvv s =
      ((some sd, none),
        { s with
          schemas := some (alistPut ms (gvString gvv) (some sd))
          callsSwagger := s.callsSwagger + 1 }) := by
    have m4' : goMapRead (some ms) (gvString gvv) = none := hms ▸ m4
    unfold SwaggerSchema
    dsimp only
    rw [hms, m4']
    simp [hw, goMapWrite]
  have e5 : OpenAPISchema cl s =
      ((some od, none), { s with schema := some od, callsOpenAPI := s.callsOpenAPI + 1 }) := by
    simp [OpenAPISchema, m5, ho]
  refine ⟨by rw [e1], ?_, ?_, by rw [e2], ?_, ?_, by rw [e3], ?_, ?_,
    by rw [e4], ?_, ?_, by rw [e5], ?_, ?_⟩
  · rw [e1]
    simp [ServerGroups]
  · rw [e1]
    simp [totalCalls]
    omega
  · rw [e2]
    simp [ServerResourcesForGroupVersion, goMapRead]
  · rw [e2]
    simp [totalCalls]
    omega
  · rw [e3]
    simp [ServerVersion]
  · rw [e3]
    simp [totalCalls]
    omega
  · rw [e4]
    simp [SwaggerSchema, goMapRead]
  · rw [e4]
    simp [totalCalls]
    omega
  · rw [e5]
    simp [OpenAPISchema]
  · rw [e5]
    simp [totalCalls]
    omega

/-- Claim C8: ServerVersion does not cache on error: a failed provider call
returns the error, stores nothing (only the ghost counter moves), and the
next call issues a fresh provider call; SwaggerSchema and OpenAPISchema
behave the same way, storing their result only on success. -/
theorem no_negative_caching (cl cl' : Provider) (s : CacheState)
    (e1 e2 e3 : Err) (gvv : GroupVersion) (vi : VersionInfo) (sd : ApiDeclaration)
    (od : OpenAPIDocument)
    (m3 : s.serverVersion = none) (m4 : goMapRead s.schemas (gvString gvv) = none)
    (m5 : s.schema = none)
    (hv : (cl.serverVersion).2 = some e1)
    (hw : (cl.swaggerSchema (gvString gvv)).2 = some e2)
    (ho : (cl.openAPISchema).2 = some e3)
    (hv' : cl'.serverVersion = (some vi, none))
    (hw' : cl'.swaggerSchema (gvString gvv) = (some sd, none))
    (ho' : cl'.openAPISchema = (some od, none)) :
    (ServerVersion cl s).1 = (none, some e1) ∧
    (ServerVersion cl s).2 = { s with callsVersion := s.callsVersion + 1 } ∧
    totalCalls (ServerVersion cl (ServerVersion cl s).2).2 = totalCalls s + 2 ∧
    (SwaggerSchema cl gvv s).1 = (none, some e2) ∧
    (SwaggerSchema cl gvv s).2 = { s with callsSwagger := s.callsSwagger + 1 } ∧
    totalCalls (SwaggerSchema cl gvv (SwaggerSchema cl gvv s).2).2 = totalCalls s + 2 ∧
    (OpenAPISchema cl s).1 = (none, some e3) ∧
    (OpenAPISchema cl s).2 = { s with callsOpenAPI := s.callsOpenAPI + 1 } ∧
    totalCalls (OpenAPISchema cl (OpenAPISchema cl s).2).2 = totalCalls s + 2 ∧
    (ServerVersion cl' s).2.serverVersion = some vi ∧
    (SwaggerSchema cl' gvv s).2.schemas = goMapWrite s.schemas (gvString gvv) (some sd) ∧
    (OpenAPISchema cl' s).2.schema = some od := by
  rcases hcv : cl.serverVersion with ⟨va, ea⟩
  rw [hcv] at hv
  simp only at hv
  subst hv
  rcases hcw : cl.swaggerSchema (gvString gvv) with ⟨da, eb⟩
  rw [hcw] at hw
  simp only at hw
  subst hw
  rcases hco : cl.openAPISchema with ⟨oa, ec⟩
  rw [hco] at ho
  simp only at ho
  subst ho
  have eV : ServerVersion cl s = ((none, some e1), { s with callsVersion := s.callsVersion + 1 }) := by
    simp [ServerVersion, m3, hcv]
  have eS : SwaggerSchema cl gvv s = ((none, some e2), { s with callsSwagger := s.callsSwagger + 1 }) := by
    unfold SwaggerSchema
    dsimp only
    rw [m4]
    simp [hcw]
  have eO : OpenAPISchema cl s = ((none, some e3), { s with callsOpenAPI := s.callsOpenAPI + 1 }) := by
    simp [OpenAPISchema, m5, hco]
  refine ⟨by rw [eV], by rw [eV], ?_, by rw [eS], by rw [eS], ?_, by rw [eO], by rw [eO], ?_, ?_, ?_, ?_⟩
  · rw [eV]
    simp [ServerVersion, m3, hcv, totalCalls]
    omega
  · rw [eS]
    unfold SwaggerSchema
    dsimp only
    rw [show ({ s with callsSwagger := s.callsSwagger + 1 } : CacheState).schemas = s.schemas from rfl, m4]
    simp [hcw, totalCalls]
    omega
  · rw [eO]
    simp [OpenAPISchema, m5, hco, totalCalls]
    omega
  · simp [ServerVersion, m3, hv']
  · unfold SwaggerSchema
    dsimp only
    rw [m4]
    simp [hw']
  · simp [OpenAPISchema, m5, ho']

/-- Claim C2 counterexample: against a provider whose calls fail with a nil
result, the second call of ServerGroups and of
ServerResourcesForGroupVersion issues a fresh provider call (the ghost
counter reaches 2) and returns the error again, not a cached nil without
error. -/
theorem errored_fetch_not_served_from_cache :
    (ServerGroups clBad (ServerGroups clBad NewMemcachedDiscoveryClient).2).1 =
      (none, some ⟨"groups boom"⟩) ∧
    (ServerGroups clBad (ServerGroups clBad NewMemcachedDiscoveryClient).2).2.callsGroups = 2 ∧
    (ServerResourcesForGroupVersion clBad "apps/v1"
        (ServerResourcesForGroupVersion clBad "apps/v1" NewMemcachedDiscoveryClient).2).1 =
      (none, some ⟨"resources boom"⟩) ∧
    (ServerResourcesForGroupVersion clBad "apps/v1"
        (ServerResourcesForGroupVersion clBad "apps/v1" NewMemcachedDiscoveryClient).2).2.callsResources = 2 := by
  refine ⟨by decide, by decide, by decide, by decide⟩

/-- Claim C2 (amended): when the provider call fails, the (possibly nil)
result is still assigned into the cache slot; but a stored nil is not a
cache hit, so after a nil-result failure the next call issues a fresh
provider call; only a non-nil result stored alongside the error is served on
the next call as a cached success without a fresh provider call. -/
theorem errored_fetch_assigns_slot (cl : Provider) (s : CacheState)
    (m : List (String × Option APIResourceList)) (gq : Option APIGroupList)
    (rq : Option APIResourceList) (e e' : Err) (gv : String)
    (h1 : s.servergroups = none)
    (hm : s.serverresources = some m) (h2 : goMapRead (some m) gv = none)
    (hg : cl.serverGroups = (gq, some e))
    (hr : cl.serverResourcesForGroupVersion gv = (rq, some e')) :
    (ServerGroups cl s).2.servergroups = gq ∧
    (ServerGroups cl s).1.2 = some e ∧
    (ServerResourcesForGroupVersion cl gv s).2.serverresources = some (alistPut m gv rq) ∧
    (ServerResourcesForGroupVersion cl gv s).1.2 = some e' ∧
    (gq = none → totalCalls (ServerGroups cl (ServerGroups cl s).2).2 = totalCalls s + 2) ∧
    (rq = none → totalCalls (ServerResourcesForGroupVersion cl gv
        (ServerResourcesForGroupVersion cl gv s).2).2 = totalCalls s + 2) ∧
    (∀ gval, gq = some gval → ServerGroups cl (ServerGroups cl s).2 =
        ((some gval, none), (ServerGroups cl s).2)) ∧
    (∀ rlv, rq = some rlv → ServerResourcesForGroupVersion cl gv
        (ServerResourcesForGroupVersion cl gv s).2 =
        ((some rlv, none), (ServerResourcesForGroupVersion cl gv s).2)) := by
  have eG : ServerGroups cl s =
      ((gq, some e), { s with servergroups := gq, callsGroups := s.callsGroups + 1 }) := by
    simp [ServerGroups, h1, hg]
  have eR : ServerResourcesForGroupVersion cl gv s =
      ((rq, some e'),
        { s with
          serverresources := some (alistPut m gv rq)
          callsResources := s.callsResources + 1 }) := by
    unfold ServerResourcesForGroupVersion
    rw [hm, h2]
    simp [hr, goMapWrite, goMapRead]
  refine ⟨by rw [eG], by rw [eG], by rw [eR], by rw [eR], ?_, ?_, ?_, ?_⟩
  · intro hq
    subst hq
    rw [eG]
    simp [ServerGroups, hg, totalCalls]
    omega
  · intro hq
    subst hq
    rw [eR]
    unfold ServerResourcesForGroupVersion
    rw [show ({ s with serverresources := some (alistPut m gv none), callsResources := s.callsResources + 1 } : CacheState).serverresources = some (alistPut m gv none) from rfl]
    rw [show goMapRead (some (alistPut m gv none)) gv = none by simp [goMapRead]]
    simp [hr, goMapWrite, goMapRead, totalCalls]
    omega
  · intro gval hq
    subst hq
    rw [eG]
    simp [ServerGroups]
  · intro rlv hq
    subst hq
    rw [eR]
    unfold ServerResourcesForGroupVersion
    rw [show ({ s with serverresources := some (alistPut m gv (some rlv)), callsResources := s.callsResources + 1 } : CacheState).serverresources = some (alistPut m gv (some rlv)) from rfl]
    rw [show goMapRead (some (alistPut m gv (some rlv))) gv = some rlv by simp [goMapRead]]

/-- Witness: the idempotence theorem applied to a concrete provider and the
freshly constructed client. -/
theorem read_through_idempotent_witness :
    (ServerGroups clApps NewMemcachedDiscoveryClient).1 = (some ⟨[appsGroup]⟩, none) ∧
    totalCalls (ServerGroups clApps NewMemcachedDiscoveryClient).2 = 1 ∧
    (ServerVersion clApps NewMemcachedDiscoveryClient).1 = (some ⟨"v1.8.0"⟩, none) := by
  have h := read_through_idempotent clApps NewMemcachedDiscoveryClient ⟨[appsGroup]⟩
    ⟨"apps/v1", [deploymentsRes]⟩ ⟨"v1.8.0"⟩ ⟨"swagger"⟩ ⟨"openapi"⟩ "apps/v1" ⟨"apps", "v1"⟩
    [] [] rfl rfl rfl rfl rfl rfl rfl rfl rfl rfl rfl rfl
  exact ⟨h.1, h.2.2.1, h.2.2.2.2.2.2.1⟩

/-- Witness: the no-negative-caching theorem applied to a failing provider
and a succeeding one, from the freshly constructed client. -/
theorem no_negative_caching_witness :
    (ServerVersion clBad NewMemcachedDiscoveryClient).1 = (none, some ⟨"version boom"⟩) ∧
    totalCalls (ServerVersion clBad (ServerVersion clBad NewMemcachedDiscoveryClient).2).2 = 2 ∧
    (ServerVersion clApps NewMemcachedDiscoveryClient).2.serverVersion = some ⟨"v1.8.0"⟩ := by
  have h := no_negative_caching clBad clApps NewMemcachedDiscoveryClient
    ⟨"version boom"⟩ ⟨"swagger boom"⟩ ⟨"openapi boom"⟩ ⟨"apps", "v1"⟩ ⟨"v1.8.0"⟩ ⟨"swagger"⟩
    ⟨"openapi"⟩ rfl rfl rfl rfl rfl rfl rfl rfl rfl
  exact ⟨h.1, h.2.2.1, h.2.2.2.2.2.2.2.2.2.1⟩

/-- Witness: the amended poisoning theorem applied to a provider that fails
with non-nil results, from the freshly constructed client. -/
theorem errored_fetch_assigns_slot_witness :
    (ServerGroups clPoison NewMemcachedDiscoveryClient).2.servergroups = some ⟨[]⟩ ∧
    ServerGroups clPoison (ServerGroups clPoison NewMemcachedDiscoveryClient).2 =
      ((some ⟨[]⟩, none), (ServerGroups clPoison NewMemcachedDiscoveryClient).2) := by
  have h := errored_fetch_assigns_slot clPoison NewMemcachedDiscoveryClient [] (some ⟨[]⟩)
    (some ⟨"apps/v1", []⟩) ⟨"groups late error"⟩ ⟨"resources late error"⟩ "apps/v1"
    rfl rfl rfl rfl rfl
  exact ⟨h.1, h.2.2.2.2.2.2.1 _ rfl⟩

/-! ## Resolver lemmas -/

theorem firstKindMatch_eq_find (kind : String) (rs : List APIResource) :
    firstKindMatch kind rs = rs.find? (fun r => decide (r.kind = kind)) := by
  induction rs with
  | nil => rfl
  | cons r rs ih =>
    by_cases h : r.kind = kind <;> simp [firstKindMatch, h, ih]

theorem firstKindMatch_none_iff (kind : String) (rs : List APIResource) :
    firstKindMatch kind rs = none ↔ ∀ r ∈ rs, r.kind ≠ kind := by
  induction rs with
  | nil => simp [firstKindMatch]
  | cons r rs ih =>
    by_cases h : r.kind = kind <;> simp [firstKindMatch, h, ih]

/-- Claim C9: the resolver fetches the resource list for the object's
group-version and linearly scans for the first resource whose Kind matches
exactly; it returns an error naming the offending group-version (wrapped
fetch failure) or the group-version-kind (no match) exactly when the fetch
fails or no Kind matches. -/
theorem resolver_first_match_or_error (disco : String → Option APIResourceList × Option Err)
    (gvk : GroupVersionKind) :
    (∀ res e, disco (gvString (gvOf gvk)) = (res, some e) →
      serverResourceForGroupVersionKind disco gvk =
        some (none, some (ResolveErr.unableToFetch (gvOf gvk) e))) ∧
    (∀ rl, disco (gvString (gvOf gvk)) = (some rl, none) →
      serverResourceForGroupVersionKind disco gvk =
        some (rl.apiResources.find? (fun r => decide (r.kind = gvk.kind)),
          if ∀ r ∈ rl.apiResources, r.kind ≠ gvk.kind then
            some (ResolveErr.unableToHandle gvk)
          else none)) ∧
    (disco (gvString (gvOf gvk)) ≠ (none, none) →
      ((∃ errv, serverResourceForGroupVersionKind disco gvk = some (none, some errv)) ↔
        (∃ e, (disco (gvString (gvOf gvk))).2 = some e) ∨
          (∃ rl, disco (gvString (gvOf gvk)) = (some rl, none) ∧
            ∀ r ∈ rl.apiResources, r.kind ≠ gvk.kind))) := by
  refine ⟨?_, ?_, ?_⟩
  · intro res e hde
    simp [serverResourceForGroupVersionKind, hde]
  · intro rl hdrl
    unfold serverResourceForGroupVersionKind
    rw [hdrl, ← firstKindMatch_eq_find]
    cases hf : firstKindMatch gvk.kind rl.apiResources with
    | some r =>
      have hne : ¬ ∀ r2 ∈ rl.apiResources, r2.kind ≠ gvk.kind := by
        intro hall
        have hno := (firstKindMatch_none_iff gvk.kind rl.apiResources).mpr hall
        rw [hno] at hf
        exact Option.noConfusion hf
      simp [hf, hne]
    | none =>
      simp [hf]
      exact (firstKindMatch_none_iff gvk.kind rl.apiResources).mp hf
  · intro hnp
    rcases hd : disco (gvString (gvOf gvk)) with ⟨res, err⟩
    cases err with
    | some e =>
      have hres : serverResourceForGroupVersionKind disco gvk =
          some (none, some (ResolveErr.unableToFetch (gvOf gvk) e)) := by
        simp [serverResourceForGroupVersionKind, hd]
      constructor
      · intro _
        exact Or.inl ⟨e, rfl⟩
      · intro _
        exact ⟨_, hres⟩
    | none =>
      cases res with
      | none => exact absurd hd hnp
      | some rl =>
        cases hf : firstKindMatch gvk.kind rl.apiResources with
        | some r =>
          have hres : serverResourceForGroupVersionKind disco gvk = some (some r, none) := by
            unfold serverResourceForGroupVersionKind
            rw [hd]
            simp [hf]
          constructor
          · rintro ⟨errv, heq⟩
            rw [hres] at heq
            simp at heq
          · rintro (⟨e, he⟩ | ⟨rl2, hrl2, hall⟩)
            · simp at he
            · injection hrl2 with ha hb
              injection ha with ha2
              subst ha2
              have hno := (firstKindMatch_none_iff gvk.kind rl.apiResources).mpr hall
              rw [hno] at hf
              exact Option.noConfusion hf
        | none =>
          have hres : serverResourceForGroupVersionKind disco gvk =
              some (none, some (ResolveErr.unableToHandle gvk)) := by
            unfold serverResourceForGroupVersionKind
            rw [hd]
            simp [hf]
          constructor
          · intro _
            exact Or.inr ⟨rl, rfl, (firstKindMatch_none_iff gvk.kind rl.apiResources).mp hf⟩
          · intro _
            exact ⟨_, hres⟩

/-- Witness: the resolver theorem applied to a concrete discovery table and
a Job object: the first Kind match is returned. -/
theorem resolver_first_match_or_error_witness :
    serverResourceForGroupVersionKind discoBatch ⟨"batch", "v1", "Job"⟩ =
      some (some jobsRes, none) := by
  have h := (resolver_first_match_or_error discoBatch ⟨"batch", "v1", "Job"⟩).2.1
    ⟨"batch/v1", [⟨"cronjobs", "CronJob", true⟩, jobsRes]⟩ (by decide)
  rw [h]
  decide

/-- Every operation preserves allocation of the two Go maps. -/
theorem step_mapsAlloc (cl : Provider) (s : CacheState) (op : Op) (h : MapsAlloc s) :
    MapsAlloc (step cl s op) := by
  obtain ⟨m, hm⟩ := Option.isSome_iff_exists.mp h.1
  obtain ⟨ms, hms⟩ := Option.isSome_iff_exists.mp h.2
  cases op with
  | invalidate => exact ⟨rfl, rfl⟩
  | groups =>
    cases hsg : s.servergroups <;> simp [step, ServerGroups, hsg, MapsAlloc, h.1, h.2]
  | resourcesFor gv =>
    cases hread : goMapRead s.serverresources gv with
    | some v => simp [step, ServerResourcesForGroupVersion, hread, MapsAlloc, h.1, h.2]
    | none =>
      have hread' : goMapRead (some m) gv = none := hm ▸ hread
      simp [step, ServerResourcesForGroupVersion, hread', MapsAlloc, hm, hms, goMapWrite]
  | version =>
    cases hsv : s.serverVersion with
    | some v => simp [step, ServerVersion, hsv, MapsAlloc, h.1, h.2]
    | none =>
      rcases hcv : cl.serverVersion with ⟨va, ea⟩
      cases ea <;> simp [step, ServerVersion, hsv, hcv, MapsAlloc, h.1, h.2]
  | swagger gvv =>
    cases hread : goMapRead s.schemas (gvString gvv) with
    | some v => simp [step, SwaggerSchema, hread, MapsAlloc, h.1, h.2]
    | none =>
      have hread' : goMapRead (some ms) (gvString gvv) = none := hms ▸ hread
      rcases hcw : cl.swaggerSchema (gvString gvv) with ⟨da, ea⟩
      cases ea <;>
        simp [step, SwaggerSchema, hread', hcw, MapsAlloc, hm, hms, goMapWrite, h.1, h.2]
  | openapi =>
    cases hso : s.schema with
    | some v => simp [step, OpenAPISchema, hso, MapsAlloc, h.1, h.2]
    | none =>
      rcases hco : cl.openAPISchema with ⟨oa, ea⟩
      cases ea <;> simp [step, OpenAPISchema, hso, hco, MapsAlloc, h.1, h.2]

/-- Claim C10: after NewMemcachedDiscoveryClient (which runs Invalidate and
so allocates fresh maps), the per-group-version resource map and the
per-version schema map are non-nil and stay non-nil across every sequence of
cache operations; hence the map insertions in
ServerResourcesForGroupVersion and SwaggerSchema never write to a nil
map. -/
theorem maps_always_allocated (cl : Provider) (ops : List Op) :
    MapsAlloc (runOps cl ops NewMemcachedDiscoveryClient) := by
  have hgen : ∀ (l : List Op) (s : CacheState), MapsAlloc s → MapsAlloc (runOps cl l s) := by
    intro l
    induction l with
    | nil => intro s h; exact h
    | cons op l ih =>
      intro s h
      exact ih _ (step_mapsAlloc cl s op h)
  exact hgen ops _ ⟨rfl, rfl⟩

/-! ## Aggregation: inversion of a successful run -/

theorem mem_alistErase [DecidableEq κ] {m : List (κ × β)} {k : κ} {p : κ × β}
    (h : p ∈ alistErase m k) : p ∈ m := by
  induction m with
  | nil => simp [alistErase] at h
  | cons q m ih =>
    by_cases hq : q.1 = k
    · simp only [alistErase, if_pos hq] at h
      exact List.mem_cons_of_mem _ (ih h)
    · simp only [alistErase, if_neg hq] at h
      rcases List.mem_cons.mp h with h1 | h2
      · exact h1 ▸ List.mem_cons_self _ _
      · exact List.mem_cons_of_mem _ (ih h2)

theorem mem_alistPut [DecidableEq κ] {m : List (κ × β)} {k : κ} {v : β} {p : κ × β}
    (h : p ∈ alistPut m k v) : p = (k, v) ∨ p ∈ m := by
  rcases List.mem_cons.mp h with h1 | h2
  · exact Or.inl h1
  · exact Or.inr (mem_alistErase h2)

theorem selectResource_names (gName prefV vV : String) (acc : SelState) (r : APIResource)
    (h : SelNames acc) : SelNames (selectResource gName prefV vV acc r) := by
  intro p hp
  unfold selectResource at hp
  by_cases hs : goStringsContains r.name "/" = true
  · rw [if_pos hs] at hp
    exact h p hp
  · rw [if_neg hs] at hp
    have hs' : goStringsContains r.name "/" = false := by
      cases hh : goStringsContains r.name "/" <;> simp_all
    by_cases hg : (alistGet acc.grApiResources ⟨gName, r.name⟩).isSome = true ∧ vV ≠ prefV
    · rw [if_pos hg] at hp
      exact h p hp
    · rw [if_neg hg] at hp
      rcases mem_alistPut hp with h1 | h2
      · subst h1
        exact ⟨rfl, hs'⟩
      · exact h p h2

theorem selectList_names (gName prefV vV : String) (rs : List APIResource) (acc : SelState)
    (h : SelNames acc) : SelNames (selectList gName prefV vV rs acc) := by
  induction rs generalizing acc with
  | nil => exact h
  | cons r rs ih => exact ih _ (selectResource_names gName prefV vV acc r h)

theorem selectAll_names (visits : List Visit) : SelNames (selectAll visits) := by
  have hgen : ∀ (l : List Visit) (acc : SelState), SelNames acc →
      SelNames (l.foldl selectVisit acc) := by
    intro l
    induction l with
    | nil => exact fun acc h => h
    | cons t ts ih =>
      intro acc h
      exact ih _ (selectList_names t.gName t.prefV t.vVer t.rs acc h)
  exact hgen visits ⟨[], []⟩ (by intro p hp; simp at hp)

/-- Every pair recorded by the regrouping loop comes from a selection
entry. -/
theorem buckets_mem (grV : List (GroupResource × String)) (gvL : List (GroupVersion × Nat))
    (entries : List (GroupResource × APIResource)) (pairs : List (Nat × APIResource))
    (h : buckets grV gvL entries = some pairs) :
    ∀ q ∈ pairs, ∃ k, (k, (q : Nat × APIResource).2) ∈ entries := by
  induction entries generalizing pairs with
  | nil =>
    simp only [buckets] at h
    injection h with h
    subst h
    intro q hq
    simp at hq
  | cons e rest ih =>
    obtain ⟨k0, r0⟩ := e
    unfold buckets at h
    cases halist : alistGet gvL ⟨k0.group, (alistGet grV k0).getD ""⟩ with
    | none =>
      rw [halist] at h
      simp at h
    | some i =>
      rw [halist] at h
      cases hb : buckets grV gvL rest with
      | none =>
        rw [hb] at h
        simp at h
      | some ps =>
        rw [hb] at h
        simp only [Option.map_some] at h
        injection h with h
        subst h
        intro q hq
        rcases List.mem_cons.mp hq with h1 | h2
        · subst h1
          exact ⟨k0, List.mem_cons_self _ _⟩
        · obtain ⟨k, hk⟩ := ih ps hb q h2
          exact ⟨k, List.mem_cons_of_mem _ hk⟩

/-- Every selection entry is recorded by the regrouping loop into the
placeholder its winning GroupVersion points at. -/
theorem buckets_lookup (grV : List (GroupResource × String)) (gvL : List (GroupVersion × Nat))
    (entries : List (GroupResource × APIResource)) (pairs : List (Nat × APIResource))
    (h : buckets grV gvL entries = some pairs) :
    ∀ k r, (k, r) ∈ entries →
      ∃ i, alistGet gvL ⟨k.group, (alistGet grV k).getD ""⟩ = some i ∧ (i, r) ∈ pairs := by
  induction entries generalizing pairs with
  | nil =>
    intro k r hk
    simp at hk
  | cons e rest ih =>
    obtain ⟨k0, r0⟩ := e
    unfold buckets at h
    cases halist : alistGet gvL ⟨k0.group, (alistGet grV k0).getD ""⟩ with
    | none =>
      rw [halist] at h
      simp at h
    | some i =>
      rw [halist] at h
      cases hb : buckets grV gvL rest with
      | none =>
        rw [hb] at h
        simp at h
      | some ps =>
        rw [hb] at h
        simp only [Option.map_some] at h
        injection h with h
        subst h
        intro k r hk
        rcases List.mem_cons.mp hk with h1 | h2
        · have hk0 : k = k0 ∧ r = r0 := by
            constructor
            · exact congrArg Prod.fst h1
            · exact congrArg Prod.snd h1
          obtain ⟨hka, hkb⟩ := hk0
          subst hka
          subst hkb
          exact ⟨i, halist, List.mem_cons_self _ _⟩
        · obtain ⟨j, hj1, hj2⟩ := ih ps hb k r h2
          exact ⟨j, hj1, List.mem_cons_of_mem _ hj2⟩

/-- A successful assemble run names its bucket list. -/
theorem assemble_ok_shape (visits : List Visit) (lists : List APIResourceList)
    (h : assemble visits = some lists) :
    ∃ pairs,
      buckets (selectAll visits).grVersions (gvListsOf visits)
        (selectAll visits).grApiResources = some pairs ∧
      lists = (withIdx 0 visits).map (fun p =>
        ⟨p.2.vStr, (pairs.filter (fun q => decide (q.1 = p.1))).map (·.2)⟩) := by
  unfold assemble at h
  dsimp only at h
  cases hb : buckets (selectAll visits).grVersions (gvListsOf visits)
      (selectAll visits).grApiResources with
  | none =>
    rw [hb] at h
    simp at h
  | some pairs =>
    rw [hb] at h
    refine ⟨pairs, rfl, ?_⟩
    dsimp only at h
    injection h with h
    exact h.symm

/-- A successful ServerPreferredResources run decomposes into a successful
group fetch, a successful visit loop and a successful assembly. -/
theorem spr_ok_inv (cl : Provider) (s : CacheState) (result : List APIResourceList)
    (s' : CacheState) (h : ServerPreferredResources cl s = AggResult.ok result s') :
    ∃ gl s1 visits,
      ServerGroups cl s = ((some gl, none), s1) ∧
      fetchVisits cl (triplesOf gl.groups) s1 = FetchOut.ok visits s' ∧
      assemble visits = some result := by
  unfold ServerPreferredResources at h
  rcases hg : ServerGroups cl s with ⟨⟨oGl, oErr⟩, s1⟩
  rw [hg] at h
  cases oErr with
  | some e => simp at h
  | none =>
    cases oGl with
    | none => simp at h
    | some gl =>
      simp only at h
      cases hf : fetchVisits cl (triplesOf gl.groups) s1 with
      | fail e s2 =>
        rw [hf] at h
        simp at h
      | panicked =>
        rw [hf] at h
        simp at h
      | ok visits s2 =>
        rw [hf] at h
        dsimp only at h
        cases ha : assemble visits with
        | none =>
          rw [ha] at h
          simp at h
        | some lists =>
          rw [ha] at h
          dsimp only at h
          injection h with h1 h2
          subst h1
          subst h2
          exact ⟨gl, s1, visits, rfl, hf, ha⟩

/-- Claim C5: resources whose name contains a slash are excluded from
preference selection: such a name never becomes a (group, resource-name)
selection key, and no such resource ever appears in any output list of the
aggregation. -/
theorem subresources_excluded :
    (∀ (visits : List Visit) (k : GroupResource),
        (alistGet (selectAll visits).grApiResources k).isSome = true →
        goStringsContains k.resource "/" = false) ∧
    (∀ (cl : Provider) (s : CacheState) (result : List APIResourceList) (s' : CacheState),
        ServerPreferredResources cl s = AggResult.ok result s' →
        ∀ rl ∈ result, ∀ r ∈ rl.apiResources, goStringsContains r.name "/" = false) := by
  constructor
  · intro visits k hk
    rcases ho : alistGet (selectAll visits).grApiResources k with _ | r
    · rw [ho] at hk
      simp at hk
    · obtain ⟨hname, hslash⟩ := selectAll_names visits _ (alistGet_mem ho)
      rw [← hname]
      exact hslash
  · intro cl s result s' h rl hrl r hr
    obtain ⟨gl, s1, visits, hg, hf, ha⟩ := spr_ok_inv cl s result s' h
    obtain ⟨pairs, hb, hshape⟩ := assemble_ok_shape visits result ha
    subst hshape
    obtain ⟨p, hp, hpeq⟩ := List.mem_map.mp hrl
    rw [← hpeq] at hr
    simp only at hr
    obtain ⟨q, hq, hqeq⟩ := List.mem_map.mp hr
    have hqpairs : q ∈ pairs := (List.mem_filter.mp hq).1
    obtain ⟨k, hk⟩ := buckets_mem _ _ _ _ hb q hqpairs
    have := (selectAll_names visits _ hk).2
    rw [← hqeq]
    exact this

/-- Witness: the subresource-exclusion theorem applied to the concrete core
provider whose listing holds a pods/status subresource. -/
theorem subresources_excluded_witness :
    goStringsContains nodesRes.name "/" = false := by
  refine subresources_excluded.2 clCore NewMemcachedDiscoveryClient
    [⟨"v1", [nodesRes, podsRes]⟩, ⟨"batch/v1", [jobsRes]⟩] _ rfl
    ⟨"v1", [nodesRes, podsRes]⟩ (by simp) nodesRes (by simp)

/-! ## Namespaced filtering -/

theorem countFor_cons (gv : String) (rl : APIResourceList) (ls : List APIResourceList) :
    countFor gv (rl :: ls) =
      (if rl.groupVersion = gv then rl.apiResources.length else 0) + countFor gv ls := by
  by_cases h : rl.groupVersion = gv <;> simp [countFor, h, List.filter_cons]

theorem countFor_FilteredBy_le (p : String → APIResource → Bool) (gv : String)
    (l : List APIResourceList) : countFor gv (FilteredBy p l) ≤ countFor gv l := by
  induction l with
  | nil => simp [FilteredBy, countFor]
  | cons rl ls ih =>
    have hcons : FilteredBy p (rl :: ls) =
        (⟨rl.groupVersion, rl.apiResources.filter (p rl.groupVersion)⟩ : APIResourceList) ::
          FilteredBy p ls := rfl
    rw [hcons, countFor_cons, countFor_cons]
    by_cases h : rl.groupVersion = gv
    · simp only [h, if_pos rfl]
      exact Nat.add_le_add (List.length_filter_le _ _) ih
    · simp only [h, if_neg h]
      exact Nat.add_le_add (Nat.le_refl 0) ih

theorem FilteredBy_mem_pred (p : String → APIResource → Bool) (l : List APIResourceList)
    (rl : APIResourceList) (hrl : rl ∈ FilteredBy p l) (r : APIResource)
    (hr : r ∈ rl.apiResources) : p rl.groupVersion r = true := by
  unfold FilteredBy at hrl
  obtain ⟨rl0, _, hrl0⟩ := List.mem_map.mp hrl
  subst hrl0
  simp only at hr
  exact (List.mem_filter.mp hr).2

/-- Claim C7: for every group-version, the namespaced aggregation lists at
most as many resources as the full preferred aggregation, and every resource
it lists is namespaced. -/
theorem namespaced_filter_shrinks (cl : Provider) (s : CacheState)
    (nl : List APIResourceList) (s' : CacheState)
    (h : ServerPreferredNamespacedResources cl s = AggResult.ok nl s') :
    ∃ l, ServerPreferredResources cl s = AggResult.ok l s' ∧
      (∀ gv, countFor gv nl ≤ countFor gv l) ∧
      (∀ rl ∈ nl, ∀ r ∈ rl.apiResources, r.namespaced = true) := by
  unfold ServerPreferredNamespacedResources at h
  cases hs : ServerPreferredResources cl s with
  | ok l s2 =>
    rw [hs] at h
    simp only [AggResult.ok.injEq] at h
    obtain ⟨h1, h2⟩ := h
    subst h1
    subst h2
    refine ⟨l, rfl, ?_, ?_⟩
    · intro gv
      exact countFor_FilteredBy_le _ gv l
    · intro rl hrl r hr
      exact FilteredBy_mem_pred _ l rl hrl r hr
  | err e s2 =>
    rw [hs] at h
    simp at h
  | panicked =>
    rw [hs] at h
    simp at h

/-- Witness: the namespaced-filter theorem applied to the concrete core
provider; the surviving pods resource is namespaced. -/
theorem namespaced_filter_shrinks_witness :
    podsRes.namespaced = true := by
  obtain ⟨l, hl, hcount, hns⟩ := namespaced_filter_shrinks clCore NewMemcachedDiscoveryClient
    [⟨"v1", [podsRes]⟩, ⟨"batch/v1", [jobsRes]⟩] _ rfl
  exact hns ⟨"v1", [podsRes]⟩ (by simp) podsRes (by simp)

/-! ## Output structure of the aggregation -/

theorem fetchVisits_shape (cl : Provider) (ts : List GVisit) (s : CacheState)
    (visits : List Visit) (s'' : CacheState)
    (h : fetchVisits cl ts s = FetchOut.ok visits s'') :
    visits.map (fun t => (t.gName, t.prefV, t.vStr, t.vVer)) =
      ts.map (fun t => (t.gName, t.prefV, t.v.groupVersion, t.v.version)) := by
  induction ts generalizing s visits with
  | nil =>
    unfold fetchVisits at h
    injection h with h1 h2
    subst h1
    simp
  | cons t ts ih =>
    unfold fetchVisits at h
    dsimp only at h
    rcases hr : ServerResourcesForGroupVersion cl t.v.groupVersion s with ⟨⟨res, err⟩, s1⟩
    rw [hr] at h
    cases err with
    | some e => simp at h
    | none =>
      cases res with
      | none => simp at h
      | some rl =>
        dsimp only at h
        cases hf : fetchVisits cl ts s1 with
        | fail e s2 =>
          rw [hf] at h
          simp at h
        | panicked =>
          rw [hf] at h
          simp at h
        | ok vs s2 =>
          rw [hf] at h
          dsimp only at h
          injection h with h1 h2
          subst h1
          subst h2
          simp only [List.map_cons]
          rw [ih s1 vs hf]

theorem triplesOf_gvStrings (gs : List APIGroup) :
    (triplesOf gs).map (fun t => t.v.groupVersion) = declaredOrder gs := by
  induction gs with
  | nil => rfl
  | cons g gs ih =>
    simp only [triplesOf, declaredOrder, List.map_append, List.map_map]
    rw [ih]
    rfl

theorem withIdx_map_proj (g : Visit → α) (visits : List Visit) (n : Nat) :
    (withIdx n visits).map (fun p => g p.2) = visits.map g := by
  induction visits generalizing n with
  | nil => rfl
  | cons t ts ih => simp [withIdx, ih]

theorem withIdx_length (visits : List Visit) (n : Nat) :
    (withIdx n visits).length = visits.length := by
  induction visits generalizing n with
  | nil => rfl
  | cons t ts ih => simp [withIdx, ih]

theorem withIdx_mem_of_get (visits : List Visit) (n i : Nat) (t : Visit)
    (h : visits.get? i = some t) : (n + i, t) ∈ withIdx n visits := by
  induction visits generalizing n i with
  | nil => simp [List.get?] at h
  | cons u us ih =>
    cases i with
    | zero =>
      simp [List.get?] at h
      subst h
      simp [withIdx]
    | succ j =>
      have hj : us.get? j = some t := h
      have := ih (n + 1) j hj
      have harith : n + (j + 1) = (n + 1) + j := by omega
      rw [harith]
      exact List.mem_cons_of_mem _ this

theorem withIdx_mem_snd (visits : List Visit) (n : Nat) (p : Nat × Visit)
    (h : p ∈ withIdx n visits) : p.2 ∈ visits := by
  induction visits generalizing n with
  | nil => simp [withIdx] at h
  | cons u us ih =>
    rcases List.mem_cons.mp h with h1 | h2
    · subst h1
      exact List.mem_cons_self _ _
    · exact List.mem_cons_of_mem _ (ih (n + 1) h2)

theorem selectResource_grV_src (gName prefV vV : String) (acc : SelState) (r : APIResource)
    (k : GroupResource) (v : String)
    (h : alistGet (selectResource gName prefV vV acc r).grVersions k = some v) :
    alistGet acc.grVersions k = some v ∨ (gName = k.group ∧ vV = v) := by
  unfold selectResource at h
  by_cases hs : goStringsContains r.name "/" = true
  · rw [if_pos hs] at h
    exact Or.inl h
  · rw [if_neg hs] at h
    by_cases hg : (alistGet acc.grApiResources ⟨gName, r.name⟩).isSome = true ∧ vV ≠ prefV
    · rw [if_pos hg] at h
      exact Or.inl h
    · rw [if_neg hg] at h
      simp only [alistGet_put] at h
      by_cases hk : (⟨gName, r.name⟩ : GroupResource) = k
      · rw [if_pos hk] at h
        injection h with h
        right
        refine ⟨?_, h⟩
        rw [← hk]
      · rw [if_neg hk] at h
        exact Or.inl h

theorem selectList_grV_src (gName prefV vV : String) (rs : List APIResource) (acc : SelState)
    (k : GroupResource) (v : String)
    (h : alistGet (selectList gName prefV vV rs acc).grVersions k = some v) :
    alistGet acc.grVersions k = some v ∨ (gName = k.group ∧ vV = v) := by
  induction rs generalizing acc with
  | nil => exact Or.inl h
  | cons r rs ih =>
    rcases ih (selectResource gName prefV vV acc r) h with h1 | h2
    · exact selectResource_grV_src gName prefV vV acc r k v h1
    · exact Or.inr h2

theorem selectFold_grV_src (visits : List Visit) (acc : SelState) (k : GroupResource)
    (v : String)
    (h : alistGet (visits.foldl selectVisit acc).grVersions k = some v) :
    alistGet acc.grVersions k = some v ∨
      ∃ t ∈ visits, t.gName = k.group ∧ t.vVer = v := by
  induction visits generalizing acc with
  | nil => exact Or.inl h
  | cons t ts ih =>
    rcases ih (selectVisit acc t) h with h1 | ⟨t', ht', hg, hv⟩
    · rcases selectList_grV_src t.gName t.prefV t.vVer t.rs acc k v h1 with h2 | ⟨hg, hv⟩
      · exact Or.inl h2
      · exact Or.inr ⟨t, List.mem_cons_self _ _, hg, hv⟩
    · exact Or.inr ⟨t', List.mem_cons_of_mem _ ht', hg, hv⟩

theorem selectAll_inv (visits : List Visit) : SelInv (selectAll visits) := by
  have hgen : ∀ (l : List Visit) (acc : SelState), SelInv acc →
      SelInv (l.foldl selectVisit acc) := by
    intro l
    induction l with
    | nil => exact fun acc h => h
    | cons t ts ih =>
      intro acc h
      exact ih _ (selectVisit_inv acc t h)
  exact hgen visits ⟨[], []⟩ (fun _ => rfl)

theorem gvAux_get (ts : List Visit) (n : Nat) (m : List (GroupVersion × Nat))
    (gv : GroupVersion) (i : Nat) (h : alistGet (gvAux n m ts) gv = some i) :
    alistGet m gv = some i ∨
      ∃ j t, ts.get? j = some t ∧ i = n + j ∧ t.gName = gv.group ∧ t.vVer = gv.version := by
  induction ts generalizing n m with
  | nil => exact Or.inl h
  | cons t ts ih =>
    unfold gvAux at h
    rcases ih (n + 1) _ h with h1 | ⟨j, t', hj, hij, hg, hv⟩
    · rw [alistGet_put] at h1
      by_cases hk : (⟨t.gName, t.vVer⟩ : GroupVersion) = gv
      · rw [if_pos hk] at h1
        injection h1 with h1
        right
        refine ⟨0, t, rfl, by omega, ?_, ?_⟩
        · rw [← hk]
        · rw [← hk]
      · rw [if_neg hk] at h1
        exact Or.inl h1
    · right
      exact ⟨j + 1, t', hj, by omega, hg, hv⟩

theorem alistGet_put_isSome [DecidableEq κ] (m : List (κ × β)) (k k' : κ) (v : β)
    (h : (alistGet m k').isSome = true) : (alistGet (alistPut m k v) k').isSome = true := by
  rw [alistGet_put]
  by_cases hk : k = k' <;> simp [hk, h]

theorem gvAux_isSome_mono (ts : List Visit) (n : Nat) (m : List (GroupVersion × Nat))
    (gv : GroupVersion) (h : (alistGet m gv).isSome = true) :
    (alistGet (gvAux n m ts) gv).isSome = true := by
  induction ts generalizing n m with
  | nil => exact h
  | cons t ts ih => exact ih (n + 1) _ (alistGet_put_isSome m _ gv n h)

theorem gvAux_mem_isSome (ts : List Visit) (n : Nat) (m : List (GroupVersion × Nat))
    (gv : GroupVersion) (h : ∃ t ∈ ts, t.gName = gv.group ∧ t.vVer = gv.version) :
    (alistGet (gvAux n m ts) gv).isSome = true := by
  induction ts generalizing n m with
  | nil => simp at h
  | cons t ts ih =>
    obtain ⟨t', ht', hg, hv⟩ := h
    rcases List.mem_cons.mp ht' with h1 | h2
    · subst h1
      have hk : (⟨t'.gName, t'.vVer⟩ : GroupVersion) = gv := by
        cases gv
        simp_all
      unfold gvAux
      apply gvAux_isSome_mono
      rw [alistGet_put, if_pos hk]
      rfl
    · exact ih (n + 1) _ ⟨t', h2, hg, hv⟩

/-- Claim C6: a successful ServerPreferredResources run returns exactly one
ResourceList per (group, version) pair visited, keyed in group-declared
visitation order (so every visited group-version appears even with zero
winners), and, whenever the discovery data is consistent (each visited
entry's GroupVersion string agrees with its structured group and version),
every winning resource descriptor sits in a returned list whose key is its
winning GroupVersion. -/
theorem output_lists_per_visit (cl : Provider) (s : CacheState)
    (result : List APIResourceList) (s' : CacheState)
    (h : ServerPreferredResources cl s = AggResult.ok result s') :
    ∃ gl s1 visits,
      ServerGroups cl s = ((some gl, none), s1) ∧
      fetchVisits cl (triplesOf gl.groups) s1 = FetchOut.ok visits s' ∧
      result.map (fun rl => rl.groupVersion) = declaredOrder gl.groups ∧
      result.length = (triplesOf gl.groups).length ∧
      ((∀ t ∈ visits, t.vStr = gvString ⟨t.gName, t.vVer⟩) →
        ∀ k r, alistGet (selectAll visits).grApiResources k = some r →
          ∃ v rl, alistGet (selectAll visits).grVersions k = some v ∧
            rl ∈ result ∧ r ∈ rl.apiResources ∧
            rl.groupVersion = gvString ⟨k.group, v⟩) := by
  obtain ⟨gl, s1, visits, hg, hf, ha⟩ := spr_ok_inv cl s result s' h
  obtain ⟨pairs, hb, hshape⟩ := assemble_ok_shape visits result ha
  have hmapStr : visits.map (fun t => t.vStr) = (triplesOf gl.groups).map (fun t => t.v.groupVersion) := by
    have := congrArg (List.map (fun q => (q : String × String × String × String).2.2.1))
      (fetchVisits_shape cl (triplesOf gl.groups) s1 visits s' hf)
    simpa [List.map_map, Function.comp] using this
  have hlen : visits.length = (triplesOf gl.groups).length := by
    have := congrArg List.length hmapStr
    simpa using this
  refine ⟨gl, s1, visits, hg, hf, ?_, ?_, ?_⟩
  · rw [hshape]
    have h1 : ((withIdx 0 visits).map (fun p =>
        (⟨p.2.vStr, (pairs.filter (fun q => decide (q.1 = p.1))).map (·.2)⟩ : APIResourceList))).map
          (fun rl => rl.groupVersion) = (withIdx 0 visits).map (fun p => p.2.vStr) := by
      rw [List.map_map]
      rfl
    rw [h1, withIdx_map_proj (fun t => t.vStr) visits 0, hmapStr, triplesOf_gvStrings]
  · rw [hshape]
    simp only [List.length_map]
    rw [withIdx_length]
    exact hlen
  · intro hcons k r hget
    have hinv := selectAll_inv visits k
    have hsome : (alistGet (selectAll visits).grVersions k).isSome = true := by
      rw [hinv, hget]
      rfl
    rcases hv : alistGet (selectAll visits).grVersions k with _ | v
    · rw [hv] at hsome
      simp at hsome
    · have hsrc : ∃ t ∈ visits, t.gName = k.group ∧ t.vVer = v := by
        rcases selectFold_grV_src visits ⟨[], []⟩ k v hv with h1 | h2
        · simp at h1
        · exact h2
      obtain ⟨i, hi, hipairs⟩ := buckets_lookup _ _ _ _ hb k r (alistGet_mem hget)
      rw [hv] at hi
      simp only [Option.getD_some] at hi
      rcases gvAux_get visits 0 [] ⟨k.group, v⟩ i hi with h1 | ⟨j, t', hj, hij, hgj, hvj⟩
      · simp at h1
      · have hmem : (0 + j, t') ∈ withIdx 0 visits := withIdx_mem_of_get visits 0 j t' hj
        have htmem : t' ∈ visits := withIdx_mem_snd visits 0 _ hmem
        refine ⟨v, ⟨t'.vStr, (pairs.filter (fun q => decide (q.1 = 0 + j))).map (·.2)⟩, rfl, ?_, ?_, ?_⟩
        · rw [hshape]
          exact List.mem_map.mpr ⟨(0 + j, t'), hmem, rfl⟩
        · simp only
          refine List.mem_map.mpr ⟨(i, r), ?_, rfl⟩
          refine List.mem_filter.mpr ⟨hipairs, ?_⟩
          simp [hij]
        · simp only
          rw [hcons t' htmem, hgj, hvj]

/-- Witness: the output-structure theorem applied to the apps provider; the
returned keys follow the group-declared order. -/
theorem output_lists_per_visit_witness :
    ([⟨"apps/v1beta1", ([] : List APIResource)⟩,
      ⟨"apps/v1", [deploymentsRes]⟩] : List APIResourceList).map (fun rl => rl.groupVersion) =
      declaredOrder [appsGroup] := by
  obtain ⟨gl, s1, visits, hg, hf, hmap, hlen, hwin⟩ :=
    output_lists_per_visit clApps NewMemcachedDiscoveryClient
      [⟨"apps/v1beta1", []⟩, ⟨"apps/v1", [deploymentsRes]⟩] _ rfl
  have h2 : ServerGroups clApps NewMemcachedDiscoveryClient =
      ((some ⟨[appsGroup]⟩, none), (ServerGroups clApps NewMemcachedDiscoveryClient).2) := rfl
  rw [h2] at hg
  injection hg with ha hb
  injection ha with ha1 ha2
  injection ha1 with ha3
  rw [← ha3] at hmap
  exact hmap

end Kubecfg
